import Mathlib

/-!
Verification development for the MCTS move-selection engine of
`chess_game_open_spiel_wasm` (source: `src/types.ts`, function `getBestMoveMCTS`
and class `MCTSNode`).

The chess rules engine (`chess.js`) is an external collaborator; it is embedded
abstractly as a `GameSpec` structure whose fields are exactly the operations the
MCTS code calls on a game object (`turn`, `moves`, `move`/`applyMove`,
`isGameOver`, `isCheckmate`, `isDraw`, `isThreefoldRepetition`, `isStalemate`,
`board`).  The JavaScript floating-point functions `Math.sqrt` and `Math.log`
are abstracted as function parameters `sq` and `lg`; none of the verified
properties depend on their values.  `Math.random()` is embedded as a stream
`random : Nat → ℚ` of draws consumed in call order, and `Date.now()` as a
stream `clock : Nat → ℤ` of readings in call order (reading 0 is `startTime`,
reading `i+1` is the `i`-th top-of-loop check).
-/

namespace MCTS

/-- Moves are SAN strings as returned by `chess.js` `moves()`. -/
abbrev Move := String

/-- Piece colors `'w' | 'b'` (`src/types.ts` line 1). -/
inductive Color : Type where
  | w : Color
  | b : Color
deriving DecidableEq, Repr

/-- A board square's occupant as used by the material heuristic:
`p.type` (a piece letter) and `p.color`. -/
structure Piece : Type where
  ptype : Char
  color : Color
deriving DecidableEq, Repr

/-- The game interface consumed by the MCTS code: the operations the engine
calls on a `chess.js` game object.  `applyMove` covers both
`new Chess(game.fen()); newGame.move(m)` and `gameClone.move(m)`, which
produce/step to the same position.  `board` is the 8×8 array of
`Square | null` returned by `board()`, embedded as a list of rows. -/
structure GameSpec (S : Type) : Type where
  turn : S → Color
  moves : S → List Move
  applyMove : S → Move → S
  isGameOver : S → Bool
  isCheckmate : S → Bool
  isDraw : S → Bool
  isThreefoldRepetition : S → Bool
  isStalemate : S → Bool
  board : S → List (List (Option Piece))

/-- `const TIME_LIMIT_MS = 1000` (line 43). -/
def TIME_LIMIT_MS : ℤ := 1000

/-- `const EXPLORATION_CONSTANT = 1.414` (line 44). -/
def EXPLORATION_CONSTANT : ℚ := 1.414

/-- `const MAX_SIMULATION_DEPTH = 50` (line 45). -/
def MAX_SIMULATION_DEPTH : Nat := 50

/-- `Number.MAX_VALUE`, the value `uctValue` returns for an unvisited node
(line 83): (2^53 − 1) · 2^971. -/
def NUMBER_MAX_VALUE : ℚ := (2 ^ 53 - 1) * 2 ^ 971

/-- One `MCTSNode` (lines 47-108): `move` (the move that led to this state,
`null` for the root), `untriedMoves`, `playerJustMoved`, `visits`, `wins`,
`children`.  The `parent` back-pointer is not represented; backpropagation is
embedded by updating the nodes along the selection path. -/
inductive MCTSNode : Type where
  | mk (move : Option Move) (untriedMoves : List Move) (playerJustMoved : Color)
      (visits : Nat) (wins : ℚ) (children : List MCTSNode) : MCTSNode
deriving Repr

def MCTSNode.move : MCTSNode → Option Move
  | .mk m _ _ _ _ _ => m

def MCTSNode.untriedMoves : MCTSNode → List Move
  | .mk _ um _ _ _ _ => um

def MCTSNode.playerJustMoved : MCTSNode → Color
  | .mk _ _ pjm _ _ _ => pjm

def MCTSNode.visits : MCTSNode → Nat
  | .mk _ _ _ v _ _ => v

def MCTSNode.wins : MCTSNode → ℚ
  | .mk _ _ _ _ w _ => w

def MCTSNode.children : MCTSNode → List MCTSNode
  | .mk _ _ _ _ _ cs => cs

@[simp] theorem MCTSNode.move_mk (m um pjm v w cs) :
    (MCTSNode.mk m um pjm v w cs).move = m := rfl

@[simp] theorem MCTSNode.untriedMoves_mk (m um pjm v w cs) :
    (MCTSNode.mk m um pjm v w cs).untriedMoves = um := rfl

@[simp] theorem MCTSNode.playerJustMoved_mk (m um pjm v w cs) :
    (MCTSNode.mk m um pjm v w cs).playerJustMoved = pjm := rfl

@[simp] theorem MCTSNode.visits_mk (m um pjm v w cs) :
    (MCTSNode.mk m um pjm v w cs).visits = v := rfl

@[simp] theorem MCTSNode.wins_mk (m um pjm v w cs) :
    (MCTSNode.mk m um pjm v w cs).wins = w := rfl

@[simp] theorem MCTSNode.children_mk (m um pjm v w cs) :
    (MCTSNode.mk m um pjm v w cs).children = cs := rfl

/-- `update(result)` (lines 104-107): `visits++; wins += result`. -/
def MCTSNode.update : MCTSNode → ℚ → MCTSNode
  | .mk m um pjm v w cs, res => .mk m um pjm (v + 1) (w + res) cs

/-- Replace a node's `children` (the in-place mutations
`this.children.push(child)` / updating a child object along the path). -/
def MCTSNode.withChildren : MCTSNode → List MCTSNode → MCTSNode
  | .mk m um pjm v w _, cs => .mk m um pjm v w cs

/-- Replace a node's `untriedMoves` (the in-place mutation
`this.untriedMoves = this.untriedMoves.filter(...)`). -/
def MCTSNode.withUntried : MCTSNode → List Move → MCTSNode
  | .mk m _ pjm v w cs, um => .mk m um pjm v w cs

@[simp] theorem MCTSNode.update_def (m um pjm v w cs res) :
    (MCTSNode.mk m um pjm v w cs).update res = .mk m um pjm (v + 1) (w + res) cs := rfl

@[simp] theorem MCTSNode.withChildren_def (m um pjm v w cs cs') :
    (MCTSNode.mk m um pjm v w cs).withChildren cs' = .mk m um pjm v w cs' := rfl

@[simp] theorem MCTSNode.withUntried_def (m um pjm v w cs um') :
    (MCTSNode.mk m um pjm v w cs).withUntried um' = .mk m um' pjm v w cs := rfl

/-- The `MCTSNode` constructor (lines 56-72): `playerJustMoved` is the
opposite of the current turn (both branches of the source's `if` are
identical), `untriedMoves = game.moves()`, zero statistics, no children. -/
def mkNode {S : Type} (gs : GameSpec S) (g : S) (move : Option Move) : MCTSNode :=
  .mk move (gs.moves g) (if gs.turn g = Color.w then Color.b else Color.w) 0 0 []

/-- `uctValue()` (lines 82-86); `sq`/`lg` abstract `Math.sqrt`/`Math.log`. -/
def uctValue (sq lg : ℚ → ℚ) (parentVisits : Nat) (n : MCTSNode) : ℚ :=
  if n.visits = 0 then NUMBER_MAX_VALUE
  else n.wins / (n.visits : ℚ) +
    EXPLORATION_CONSTANT * sq (lg (parentVisits : ℚ) / (n.visits : ℚ))

/-- The `reduce` of `selectChild()` (lines 88-92):
`(prev, current) => (prev.uctValue() > current.uctValue()) ? prev : current`.
The first list position index is threaded through as ghost data (`j` is the
position of the head of `l`). -/
def reduceBest (sq lg : ℚ → ℚ) (pv : Nat) :
    Nat × MCTSNode → Nat → List MCTSNode → Nat × MCTSNode
  | acc, _, [] => acc
  | acc, j, x :: xs =>
      reduceBest sq lg pv
        (if uctValue sq lg pv acc.2 > uctValue sq lg pv x then acc else (j, x)) (j + 1) xs

/-- `selectChild()` (lines 88-92): `reduce` over the children, seeded with the
first child (JavaScript `reduce` with no initial value); returns the chosen
child together with its position. -/
def selectChild (sq lg : ℚ → ℚ) (pv : Nat) (cs : List MCTSNode) :
    Option (Nat × MCTSNode) :=
  match cs with
  | [] => none
  | c :: rest => some (reduceBest sq lg pv (0, c) 1 rest)

/-- `getSimulationResult(game, playerJustMoved)` (lines 112-124). -/
def getSimulationResult {S : Type} (gs : GameSpec S) (g : S) (pjm : Color) : ℚ :=
  if gs.isCheckmate g then
    if (if gs.turn g = Color.w then Color.b else Color.w) = pjm then 1 else 0
  else if gs.isDraw g || gs.isThreefoldRepetition g || gs.isStalemate g then 1 / 2
  else 1 / 2

/-- The `values` object `{ p: 1, n: 3, b: 3, r: 5, q: 9, k: 0 }` (line 176). -/
def pieceValue : Char → ℚ
  | 'p' => 1
  | 'n' => 3
  | 'b' => 3
  | 'r' => 5
  | 'q' => 9
  | _ => 0

/-- The nested `forEach` material sum (lines 174-182): piece value added when
the piece's color equals `playerJustMoved`, subtracted otherwise. -/
def materialScore (board : List (List (Option Piece))) (pjm : Color) : ℚ :=
  board.foldl
    (fun s row =>
      row.foldl
        (fun s p =>
          match p with
          | none => s
          | some p => s + (if p.color = pjm then pieceValue p.ptype else -pieceValue p.ptype))
        s)
    0

/-- The `result` variable of the backpropagation phase (lines 167-187): exact
outcome via `getSimulationResult` when the simulation reached a terminal
state, otherwise the material-balance heuristic `0.5 + score/100` clamped to
`[0,1]`.  (In the source this value is computed and then never used: the
backpropagation loop recomputes `val` from `winner` instead.) -/
def simulationResultValue {S : Type} (gs : GameSpec S) (g : S) (pjm : Color) : ℚ :=
  if gs.isGameOver g then getSimulationResult gs g pjm
  else
    let score := materialScore (gs.board g) pjm
    let r := 1 / 2 + score / 100
    if r > 1 then 1 else if r < 0 then 0 else r

/-- The `winner` computed inside the backpropagation loop (lines 217-220):
`some` of the checkmating color, or `none` for `'draw'`. -/
def evalWinner {S : Type} (gs : GameSpec S) (g : S) : Option Color :=
  if gs.isCheckmate g then
    some (if gs.turn g = Color.w then Color.b else Color.w)
  else none

/-- The `val` credited to a node in the backpropagation loop (lines 222-224):
1 if `winner` equals the node's `playerJustMoved`, 0 if the opponent won,
0.5 for a draw. -/
def backpropValue (winner : Option Color) (pjm : Color) : ℚ :=
  if winner = some pjm then 1 else if winner ≠ none then 0 else 1 / 2

/-- `Math.floor(Math.random() * len)` (lines 150, 160). -/
def floorIdx (r : ℚ) (len : Nat) : Nat :=
  (⌊r * (len : ℚ)⌋).toNat

/-- The simulation loop (lines 157-163), with the remaining depth budget as
fuel (`fuel = MAX_SIMULATION_DEPTH - depth`).  Returns the final state, the
next unconsumed `Math.random()` index, and the ghost trace of
(state, move) pairs applied. -/
def rollout {S : Type} (gs : GameSpec S) (random : Nat → ℚ) :
    Nat → S → Nat → S × Nat × List (S × Move)
  | 0, g, k => (g, k, [])
  | fuel + 1, g, k =>
    if gs.isGameOver g then (g, k, [])
    else
      let ms := gs.moves g
      let m := ms.getD (floorIdx (random k) ms.length) ""
      let out := rollout gs random fuel (gs.applyMove g m) (k + 1)
      (out.1, out.2.1, (g, m) :: out.2.2)

/-- Result of one select→expand→simulate→backpropagate cycle: the updated
(sub)tree, the rollout's `winner`, the next unconsumed `Math.random()` index,
and the ghost trace of (state, move) pairs applied during the cycle. -/
structure CycleOut (S : Type) : Type where
  tree : MCTSNode
  winner : Option Color
  k : Nat
  trace : List (S × Move)

instance listEqNilDec {α : Type _} (l : List α) : Decidable (l = []) :=
  match l with
  | [] => isTrue rfl
  | _ :: _ => isFalse (by simp)

theorem sizeOf_children_lt (t : MCTSNode) : sizeOf t.children < sizeOf t := by
  cases t with
  | mk m um pjm v w cs => simp [MCTSNode.children]

theorem selectChild_mem {sq lg : ℚ → ℚ} {pv : Nat} {cs : List MCTSNode}
    {i : Nat} {c : MCTSNode} (h : selectChild sq lg pv cs = some (i, c)) : c ∈ cs := by
  cases cs with
  | nil => simp [selectChild] at h
  | cons c0 rest =>
    simp only [selectChild, Option.some.injEq] at h
    have key : ∀ (l : List MCTSNode) (acc : Nat × MCTSNode) (j : Nat),
        (reduceBest sq lg pv acc j l).2 = acc.2 ∨ (reduceBest sq lg pv acc j l).2 ∈ l := by
      intro l
      induction l with
      | nil => intro acc j; left; rfl
      | cons x xs ih =>
        intro acc j
        simp only [reduceBest]
        rcases ih (if uctValue sq lg pv acc.2 > uctValue sq lg pv x then acc else (j, x))
          (j + 1) with h' | h'
        · by_cases hc : uctValue sq lg pv acc.2 > uctValue sq lg pv x
          · left; rw [h', if_pos hc]
          · right; rw [h', if_neg hc]; exact List.mem_cons_self _ _
        · right; exact List.mem_cons_of_mem _ h'
    have h2 : c = (reduceBest sq lg pv (0, c0) 1 rest).2 := by rw [h]
    rcases key rest (0, c0) 1 with h' | h'
    · rw [h2, h']; exact List.mem_cons_self _ _
    · rw [h2]; exact List.mem_cons_of_mem _ h'

/-- One full MCTS cycle (lines 137-228) run from node `t` whose state is `g`,
with `k` the next unconsumed `Math.random()` index.  Selection (lines
142-145) recurses into the `selectChild` child; at the stopping node,
expansion (lines 149-153) and simulation (lines 157-163) run, and
backpropagation (lines 190-228) credits `backpropValue` at every node on the
path back up. -/
def cycle {S : Type} (gs : GameSpec S) (sq lg : ℚ → ℚ) (random : Nat → ℚ)
    (t : MCTSNode) (g : S) (k : Nat) : CycleOut S :=
  if hsel : t.untriedMoves = [] ∧ t.children ≠ [] then
    match hm : selectChild sq lg t.visits t.children with
    | none => ⟨t, none, k, []⟩
    | some (i, c) =>
      let m := c.move.getD ""
      let out := cycle gs sq lg random c (gs.applyMove g m) k
      ⟨(t.withChildren (t.children.set i out.tree)).update
          (backpropValue out.winner t.playerJustMoved),
        out.winner, out.k, (g, m) :: out.trace⟩
  else
    if t.untriedMoves ≠ [] ∧ ¬ gs.isGameOver g then
      let ms := t.untriedMoves
      let m := ms.getD (floorIdx (random k) ms.length) ""
      let g' := gs.applyMove g m
      let child := mkNode gs g' (some m)
      let sim := rollout gs random MAX_SIMULATION_DEPTH g' (k + 1)
      let w := evalWinner gs sim.1
      let child' := child.update (backpropValue w child.playerJustMoved)
      let t' := (t.withUntried (ms.filter (· ≠ m))).withChildren (t.children ++ [child'])
      ⟨t'.update (backpropValue w t.playerJustMoved), w, sim.2.1, (g, m) :: sim.2.2⟩
    else
      let sim := rollout gs random MAX_SIMULATION_DEPTH g k
      let w := evalWinner gs sim.1
      ⟨t.update (backpropValue w t.playerJustMoved), w, sim.2.1, sim.2.2⟩
termination_by sizeOf t
decreasing_by
  exact Nat.lt_trans (List.sizeOf_lt_of_mem (selectChild_mem hm)) (sizeOf_children_lt t)

/-- Outcome of running `n` search cycles from the root: the root tree, the
next unconsumed `Math.random()` index, and the accumulated ghost trace. -/
structure SearchOut (S : Type) : Type where
  tree : MCTSNode
  k : Nat
  trace : List (S × Move)

/-- The search loop (lines 132-229) run for `n` cycles: the root is
`new MCTSNode(rootGame)` and each cycle starts from a fresh clone of the
input position (`new Chess(fen)`, line 138). -/
def searchTree {S : Type} (gs : GameSpec S) (sq lg : ℚ → ℚ) (random : Nat → ℚ)
    (s : S) : Nat → SearchOut S
  | 0 => ⟨mkNode gs s none, 0, []⟩
  | n + 1 =>
    let o := searchTree gs sq lg random s n
    let c := cycle gs sq lg random o.tree s o.k
    ⟨c.tree, c.k, o.trace ++ c.trace⟩

/-- Stable insertion of a node into a list sorted by descending `visits`;
ties keep the earlier element first. -/
def insertByVisits (c : MCTSNode) : List MCTSNode → List MCTSNode
  | [] => [c]
  | d :: ds => if d.visits ≤ c.visits then c :: d :: ds else d :: insertByVisits c ds

/-- `root.children.sort((a, b) => b.visits - a.visits)` (line 232):
JavaScript `Array.prototype.sort` is stable (ES2019), so the result is the
unique descending-by-`visits` ordering that keeps equal-`visits` elements in
their original relative order; embedded as a stable insertion sort. -/
def sortByVisits : List MCTSNode → List MCTSNode
  | [] => []
  | c :: cs => insertByVisits c (sortByVisits cs)

/-- Lines 231-233: the move of the most-visited root child, `null` when the
root has no children. -/
def robustChildMove (root : MCTSNode) : Option Move :=
  match sortByVisits root.children with
  | [] => none
  | c :: _ => c.move

/-- The result of `getBestMoveMCTS` when the search runs exactly `n` cycles. -/
def bestMoveAfter {S : Type} (gs : GameSpec S) (sq lg : ℚ → ℚ) (random : Nat → ℚ)
    (s : S) (n : Nat) : Option Move :=
  robustChildMove (searchTree gs sq lg random s n).tree

/-- The loop guard's predicate: the `i`-th top-of-loop check
`Date.now() - startTime < TIME_LIMIT_MS` (line 136) fails.  `clock j` is the
`j`-th `Date.now()` reading: reading 0 is `startTime` (line 133), reading
`i + 1` is the `i`-th check. -/
def checkFails (clock : Nat → ℤ) (i : Nat) : Prop :=
  TIME_LIMIT_MS ≤ clock (i + 1) - clock 0

instance (clock : Nat → ℤ) (i : Nat) : Decidable (checkFails clock i) :=
  inferInstanceAs (Decidable (_ ≤ _))

/-- The number of completed cycles: the first top-of-loop check at which the
elapsed wall-clock time reaches `TIME_LIMIT_MS` (the check runs before each
cycle, so the loop body executes exactly that many times). -/
def loopIters (clock : Nat → ℤ) (H : ∃ i, checkFails clock i) : Nat :=
  Nat.find H

/-- `getBestMoveMCTS(fen)` (lines 126-234): `null` for a terminal input
position (line 130), otherwise run cycles until the time budget elapses and
return the most-visited root child's move.  `H` witnesses that the clock
eventually reaches the budget (real wall-clock time always does). -/
def getBestMoveMCTS {S : Type} (gs : GameSpec S) (sq lg : ℚ → ℚ) (random : Nat → ℚ)
    (clock : Nat → ℤ) (s : S) (H : ∃ i, checkFails clock i) : Option Move :=
  if gs.isGameOver s then none
  else bestMoveAfter gs sq lg random s (loopIters clock H)

/-- Modelled from the spec: the spec's exposed interface
`selectMove(position, budgetMs) -> move | none` takes "an optional
time-budget override" and repeats the cycle "until elapsed wall-clock time
since INIT meets or exceeds the configured budget (default 1000 ms)".  This
is the spec's loop-iteration count under an override `budgetMs`; the source's
entry point (`getBestMoveMCTS`) has no such parameter. -/
def specSelectMoveIters (budgetMs : Option ℤ) (clock : Nat → ℤ)
    (H : ∃ i, budgetMs.getD 1000 ≤ clock (i + 1) - clock 0) : Nat :=
  Nat.find H

/-! ### Concrete instances used for witnesses and counterexamples

`demoGame` is a concrete rules adapter satisfying the adapter contract: two
legal moves at state 0, one legal move everywhere else, never terminal (so
every rollout is cut off by the depth cap), with a constant board giving
White a +10 material balance.  `matedGame` is an adapter whose every state is
terminal. -/

def demoGame : GameSpec Nat where
  turn g := if g % 2 = 0 then Color.w else Color.b
  moves g := if g = 0 then ["a", "b"] else ["a"]
  applyMove g _ := g + 1
  isGameOver _ := false
  isCheckmate _ := false
  isDraw _ := false
  isThreefoldRepetition _ := false
  isStalemate _ := false
  board _ := [[some ⟨'q', Color.w⟩, some ⟨'p', Color.w⟩]]

def matedGame : GameSpec Unit where
  turn _ := Color.w
  moves _ := []
  applyMove g _ := g
  isGameOver _ := true
  isCheckmate _ := true
  isDraw _ := false
  isThreefoldRepetition _ := false
  isStalemate _ := false
  board _ := [[]]

/-- A concrete `Date.now()` stream advancing 600 ms per reading. -/
def demoClock (j : Nat) : ℤ := 600 * j

theorem demoClock_stops : ∃ i, checkFails demoClock i := ⟨1, by decide⟩

/-! ### Branch equations for `cycle` -/

theorem cycle_eq_select {S : Type} (gs : GameSpec S) (sq lg : ℚ → ℚ) (random : Nat → ℚ)
    (t : MCTSNode) (g : S) (k : Nat) (hsel : t.untriedMoves = [] ∧ t.children ≠ [])
    (i : Nat) (c : MCTSNode) (hc : selectChild sq lg t.visits t.children = some (i, c)) :
    cycle gs sq lg random t g k =
      let m := c.move.getD ""
      let out := cycle gs sq lg random c (gs.applyMove g m) k
      ⟨(t.withChildren (t.children.set i out.tree)).update
          (backpropValue out.winner t.playerJustMoved),
        out.winner, out.k, (g, m) :: out.trace⟩ := by
  rw [cycle.eq_def]
  rw [dif_pos hsel]
  split
  · rename_i h; rw [hc] at h; cases h
  · rename_i i' c' h; rw [hc] at h; cases h; rfl

theorem cycle_eq_expand {S : Type} (gs : GameSpec S) (sq lg : ℚ → ℚ) (random : Nat → ℚ)
    (t : MCTSNode) (g : S) (k : Nat) (hsel : ¬(t.untriedMoves = [] ∧ t.children ≠ []))
    (hexp : t.untriedMoves ≠ [] ∧ ¬gs.isGameOver g) :
    cycle gs sq lg random t g k =
      let ms := t.untriedMoves
      let m := ms.getD (floorIdx (random k) ms.length) ""
      let g' := gs.applyMove g m
      let child := mkNode gs g' (some m)
      let sim := rollout gs random MAX_SIMULATION_DEPTH g' (k + 1)
      let w := evalWinner gs sim.1
      let child' := child.update (backpropValue w child.playerJustMoved)
      let t' := (t.withUntried (ms.filter (· ≠ m))).withChildren (t.children ++ [child'])
      ⟨t'.update (backpropValue w t.playerJustMoved), w, sim.2.1, (g, m) :: sim.2.2⟩ := by
  rw [cycle.eq_def, dif_neg hsel, if_pos hexp]

theorem cycle_eq_skip {S : Type} (gs : GameSpec S) (sq lg : ℚ → ℚ) (random : Nat → ℚ)
    (t : MCTSNode) (g : S) (k : Nat) (hsel : ¬(t.untriedMoves = [] ∧ t.children ≠ []))
    (hexp : ¬(t.untriedMoves ≠ [] ∧ ¬gs.isGameOver g)) :
    cycle gs sq lg random t g k =
      let sim := rollout gs random MAX_SIMULATION_DEPTH g k
      let w := evalWinner gs sim.1
      ⟨t.update (backpropValue w t.playerJustMoved), w, sim.2.1, sim.2.2⟩ := by
  rw [cycle.eq_def, dif_neg hsel, if_neg hexp]

theorem selectChild_isSome {sq lg : ℚ → ℚ} {pv : Nat} {cs : List MCTSNode}
    (h : cs ≠ []) : ∃ i c, selectChild sq lg pv cs = some (i, c) := by
  cases cs with
  | nil => exact absurd rfl h
  | cons c0 rest =>
    exact ⟨(reduceBest sq lg pv (0, c0) 1 rest).1,
      (reduceBest sq lg pv (0, c0) 1 rest).2, rfl⟩

/-! ### Structural facts about one cycle -/

theorem MCTSNode.visits_update (t : MCTSNode) (r : ℚ) : (t.update r).visits = t.visits + 1 := by
  cases t; rfl

theorem MCTSNode.move_update (t : MCTSNode) (r : ℚ) : (t.update r).move = t.move := by
  cases t; rfl

theorem MCTSNode.wins_update (t : MCTSNode) (r : ℚ) : (t.update r).wins = t.wins + r := by
  cases t; rfl

theorem MCTSNode.children_update (t : MCTSNode) (r : ℚ) : (t.update r).children = t.children := by
  cases t; rfl

theorem MCTSNode.untried_update (t : MCTSNode) (r : ℚ) :
    (t.update r).untriedMoves = t.untriedMoves := by
  cases t; rfl

theorem MCTSNode.pjm_update (t : MCTSNode) (r : ℚ) :
    (t.update r).playerJustMoved = t.playerJustMoved := by
  cases t; rfl

/-- Backpropagation increments the visited node's `visits` by exactly one per
cycle. -/
theorem cycle_visits {S : Type} (gs : GameSpec S) (sq lg : ℚ → ℚ) (random : Nat → ℚ)
    (t : MCTSNode) (g : S) (k : Nat) :
    (cycle gs sq lg random t g k).tree.visits = t.visits + 1 := by
  induction t, g, k using cycle.induct gs sq lg random with
  | case1 t g k hsel hnone =>
    obtain ⟨i, c, hc⟩ := selectChild_isSome hsel.2
    rw [hc] at hnone; cases hnone
  | case2 t g k hsel i c hc ih =>
    rw [cycle_eq_select gs sq lg random t g k hsel i c hc]
    cases t with
    | mk m um pjm v w cs => simp [MCTSNode.update, MCTSNode.withChildren]
  | case3 t g k hsel hexp =>
    rw [cycle_eq_expand gs sq lg random t g k hsel hexp]
    cases t with
    | mk m um pjm v w cs => simp [MCTSNode.update, MCTSNode.withChildren, MCTSNode.withUntried]
  | case4 t g k hsel hexp =>
    rw [cycle_eq_skip gs sq lg random t g k hsel hexp]
    cases t with
    | mk m um pjm v w cs => simp [MCTSNode.update]

/-- A cycle never changes the node's `move` label. -/
theorem cycle_move {S : Type} (gs : GameSpec S) (sq lg : ℚ → ℚ) (random : Nat → ℚ)
    (t : MCTSNode) (g : S) (k : Nat) :
    (cycle gs sq lg random t g k).tree.move = t.move := by
  induction t, g, k using cycle.induct gs sq lg random with
  | case1 t g k hsel hnone =>
    obtain ⟨i, c, hc⟩ := selectChild_isSome hsel.2
    rw [hc] at hnone; cases hnone
  | case2 t g k hsel i c hc ih =>
    rw [cycle_eq_select gs sq lg random t g k hsel i c hc]
    cases t with
    | mk m um pjm v w cs => simp [MCTSNode.update, MCTSNode.withChildren]
  | case3 t g k hsel hexp =>
    rw [cycle_eq_expand gs sq lg random t g k hsel hexp]
    cases t with
    | mk m um pjm v w cs => simp [MCTSNode.update, MCTSNode.withChildren, MCTSNode.withUntried]
  | case4 t g k hsel hexp =>
    rw [cycle_eq_skip gs sq lg random t g k hsel hexp]
    cases t with
    | mk m um pjm v w cs => simp [MCTSNode.update]

/-- A cycle never removes children. -/
theorem cycle_children_len {S : Type} (gs : GameSpec S) (sq lg : ℚ → ℚ) (random : Nat → ℚ)
    (t : MCTSNode) (g : S) (k : Nat) :
    t.children.length ≤ (cycle gs sq lg random t g k).tree.children.length := by
  induction t, g, k using cycle.induct gs sq lg random with
  | case1 t g k hsel hnone =>
    obtain ⟨i, c, hc⟩ := selectChild_isSome hsel.2
    rw [hc] at hnone; cases hnone
  | case2 t g k hsel i c hc ih =>
    rw [cycle_eq_select gs sq lg random t g k hsel i c hc]
    cases t with
    | mk m um pjm v w cs =>
      simp [MCTSNode.update, MCTSNode.withChildren]
  | case3 t g k hsel hexp =>
    rw [cycle_eq_expand gs sq lg random t g k hsel hexp]
    cases t with
    | mk m um pjm v w cs =>
      simp [MCTSNode.update, MCTSNode.withChildren, MCTSNode.withUntried]
  | case4 t g k hsel hexp =>
    rw [cycle_eq_skip gs sq lg random t g k hsel hexp]
    cases t with
    | mk m um pjm v w cs => simp [MCTSNode.update]

/-! ### Visits monotonicity (claim C7) -/

/-- Every node's `visits` bounds each of its children's `visits`, recursively
through the whole tree. -/
inductive VisitsMono : MCTSNode → Prop where
  | mk (t : MCTSNode) : (∀ c ∈ t.children, c.visits ≤ t.visits) →
      (∀ c ∈ t.children, VisitsMono c) → VisitsMono t

theorem VisitsMono.elim_children {t : MCTSNode} (h : VisitsMono t) :
    ∀ c ∈ t.children, c.visits ≤ t.visits ∧ VisitsMono c := by
  cases h with
  | mk t h1 h2 => exact fun c hc => ⟨h1 c hc, h2 c hc⟩

theorem VisitsMono.intro2 (t : MCTSNode)
    (h : ∀ c ∈ t.children, c.visits ≤ t.visits ∧ VisitsMono c) : VisitsMono t :=
  VisitsMono.mk t (fun c hc => (h c hc).1) (fun c hc => (h c hc).2)

theorem cycle_visitsMono {S : Type} (gs : GameSpec S) (sq lg : ℚ → ℚ) (random : Nat → ℚ)
    (t : MCTSNode) (g : S) (k : Nat) (h : VisitsMono t) :
    VisitsMono (cycle gs sq lg random t g k).tree := by
  induction t, g, k using cycle.induct gs sq lg random with
  | case1 t g k hsel hnone =>
    obtain ⟨i, c, hc⟩ := selectChild_isSome hsel.2
    rw [hc] at hnone; cases hnone
  | case2 t g k hsel i c hc mlet ih =>
    rw [cycle_eq_select gs sq lg random t g k hsel i c hc]
    simp only
    apply VisitsMono.intro2
    intro c' hc'
    rw [MCTSNode.children_update] at hc'
    rw [MCTSNode.visits_update]
    cases t with
    | mk m um pjm v w cs =>
      simp only [MCTSNode.withChildren_def, MCTSNode.children_mk, MCTSNode.visits_mk] at hc' ⊢
      rcases List.mem_or_eq_of_mem_set hc' with hmem | heq
      · have := h.elim_children c' hmem
        exact ⟨Nat.le_succ_of_le this.1, this.2⟩
      · subst heq
        have hcmem : c ∈ (MCTSNode.mk m um pjm v w cs).children := selectChild_mem hc
        have hcv := h.elim_children c hcmem
        constructor
        · rw [cycle_visits]
          exact Nat.succ_le_succ hcv.1
        · exact ih hcv.2
  | case3 t g k hsel hexp =>
    rw [cycle_eq_expand gs sq lg random t g k hsel hexp]
    simp only
    apply VisitsMono.intro2
    intro c' hc'
    rw [MCTSNode.children_update] at hc'
    rw [MCTSNode.visits_update]
    cases t with
    | mk m um pjm v w cs =>
      simp only [MCTSNode.withUntried_def, MCTSNode.withChildren_def, MCTSNode.children_mk,
        MCTSNode.visits_mk, List.mem_append, List.mem_singleton] at hc' ⊢
      rcases hc' with hmem | heq
      · have := h.elim_children c' hmem
        exact ⟨Nat.le_succ_of_le this.1, this.2⟩
      · subst heq
        constructor
        · rw [MCTSNode.visits_update]; simp [mkNode]
        · apply VisitsMono.intro2
          intro d hd
          rw [MCTSNode.children_update] at hd
          simp [mkNode] at hd
  | case4 t g k hsel hexp =>
    rw [cycle_eq_skip gs sq lg random t g k hsel hexp]
    simp only
    apply VisitsMono.intro2
    intro c' hc'
    rw [MCTSNode.children_update] at hc'
    rw [MCTSNode.visits_update]
    have := h.elim_children c' hc'
    exact ⟨Nat.le_succ_of_le this.1, this.2⟩

theorem searchTree_visits {S : Type} (gs : GameSpec S) (sq lg : ℚ → ℚ) (random : Nat → ℚ)
    (s : S) (n : Nat) : (searchTree gs sq lg random s n).tree.visits = n := by
  induction n with
  | zero => simp [searchTree, mkNode]
  | succ n ih => simp [searchTree, cycle_visits, ih]

theorem searchTree_visitsMono {S : Type} (gs : GameSpec S) (sq lg : ℚ → ℚ)
    (random : Nat → ℚ) (s : S) (n : Nat) :
    VisitsMono (searchTree gs sq lg random s n).tree := by
  induction n with
  | zero =>
    apply VisitsMono.intro2
    intro c hc
    simp [searchTree, mkNode] at hc
  | succ n ih => exact cycle_visitsMono _ _ _ _ _ _ _ ih

/-! ### Head of the stable descending sort (claim C2) -/

/-- The head of the stable descending-by-`visits` sort is the first-encountered
child with maximal `visits`. -/
theorem sortByVisits_head :
    ∀ (cs : List MCTSNode), cs ≠ [] →
      ∃ l1 c l2, cs = l1 ++ c :: l2 ∧ (∃ rest, sortByVisits cs = c :: rest) ∧
        (∀ d ∈ l1, d.visits < c.visits) ∧ (∀ d ∈ cs, d.visits ≤ c.visits) := by
  intro cs
  induction cs with
  | nil => intro h; exact absurd rfl h
  | cons x xs ih =>
    intro _
    by_cases hxs : xs = []
    · subst hxs
      exact ⟨[], x, [], rfl, ⟨[], rfl⟩, by simp, by simp⟩
    · obtain ⟨l1, c, l2, hdec, ⟨rest, hsort⟩, hlt, hle⟩ := ih hxs
      by_cases hx : c.visits ≤ x.visits
      · refine ⟨[], x, xs, rfl, ⟨c :: rest, ?_⟩, by simp, ?_⟩
        · simp only [sortByVisits, hsort, insertByVisits, if_pos hx]
        · intro d hd
          rcases List.mem_cons.mp hd with h | h
          · subst h; exact le_refl _
          · exact le_trans (hle d h) hx
      · refine ⟨x :: l1, c, l2, by rw [hdec]; rfl, ⟨insertByVisits x rest, ?_⟩, ?_, ?_⟩
        · simp only [sortByVisits, hsort, insertByVisits, if_neg hx]
        · intro d hd
          rcases List.mem_cons.mp hd with h | h
          · subst h; exact Nat.lt_of_not_le hx
          · exact hlt d h
        · intro d hd
          rcases List.mem_cons.mp hd with h | h
          · subst h; exact Nat.le_of_lt (Nat.lt_of_not_le hx)
          · exact hle d h

/-- The root's children list never shrinks across cycles, so after at least
one cycle from a non-terminal position with a legal move, the root has a
child. -/
theorem searchTree_children_ne {S : Type} (gs : GameSpec S) (sq lg : ℚ → ℚ)
    (random : Nat → ℚ) (s : S) (hterm : gs.isGameOver s = false)
    (hmv : gs.moves s ≠ []) :
    ∀ n, 1 ≤ n → (searchTree gs sq lg random s n).tree.children ≠ [] := by
  intro n
  induction n with
  | zero => intro h; cases h
  | succ n ih =>
    intro _
    by_cases hn : 1 ≤ n
    · have hprev := ih hn
      have hlen := cycle_children_len gs sq lg random
        (searchTree gs sq lg random s n).tree s (searchTree gs sq lg random s n).k
      apply List.ne_nil_of_length_pos
      calc 0 < (searchTree gs sq lg random s n).tree.children.length :=
            List.length_pos.mpr hprev
        _ ≤ _ := by simpa [searchTree] using hlen
    · have hn0 : n = 0 := by omega
      subst hn0
      show (cycle gs sq lg random (mkNode gs s none) s 0).tree.children ≠ []
      have hsel : ¬((mkNode gs s none).untriedMoves = [] ∧
          (mkNode gs s none).children ≠ []) := by
        intro h
        exact hmv (by simpa [mkNode] using h.1)
      have hexp : (mkNode gs s none).untriedMoves ≠ [] ∧ ¬gs.isGameOver s := by
        constructor
        · simpa [mkNode] using hmv
        · simp [hterm]
      rw [cycle_eq_expand gs sq lg random _ s 0 hsel hexp]
      simp only
      rw [MCTSNode.children_update]
      simp [mkNode]

/-! ### Claim theorems C2, C3, C7 -/

/-- Claim C2: for every completed search whose root has at least one child,
the returned move is the move of a root child with the maximal `visits`
count, and among equally-visited children the first-encountered (leftmost)
one is returned. -/
theorem claim_C2_robust_child {S : Type} (gs : GameSpec S) (sq lg : ℚ → ℚ)
    (random : Nat → ℚ) (clock : Nat → ℤ) (s : S) (H : ∃ i, checkFails clock i)
    (hterm : gs.isGameOver s = false)
    (hch : (searchTree gs sq lg random s (loopIters clock H)).tree.children ≠ []) :
    ∃ l1 c l2,
      (searchTree gs sq lg random s (loopIters clock H)).tree.children = l1 ++ c :: l2 ∧
      getBestMoveMCTS gs sq lg random clock s H = c.move ∧
      (∀ d ∈ l1, d.visits < c.visits) ∧
      (∀ d ∈ (searchTree gs sq lg random s (loopIters clock H)).tree.children,
        d.visits ≤ c.visits) := by
  obtain ⟨l1, c, l2, hdec, ⟨rest, hsort⟩, hlt, hle⟩ :=
    sortByVisits_head (searchTree gs sq lg random s (loopIters clock H)).tree.children hch
  refine ⟨l1, c, l2, hdec, ?_, hlt, hle⟩
  simp only [getBestMoveMCTS, hterm, Bool.false_eq_true, if_false, bestMoveAfter,
    robustChildMove, hsort]

/-- Claim C3: a terminal input position yields the explicit "no move" result
(`null`), without error. -/
theorem claim_C3_terminal_returns_none {S : Type} (gs : GameSpec S) (sq lg : ℚ → ℚ)
    (random : Nat → ℚ) (clock : Nat → ℤ) (s : S) (H : ∃ i, checkFails clock i)
    (h : gs.isGameOver s = true) :
    getBestMoveMCTS gs sq lg random clock s H = none := by
  simp [getBestMoveMCTS, h]

/-- Witness for C3: the always-terminal adapter yields `none`. -/
theorem claim_C3_witness :
    matedGame.isGameOver () = true ∧
    getBestMoveMCTS matedGame id id (fun _ => 0) demoClock () demoClock_stops = none :=
  ⟨rfl, claim_C3_terminal_returns_none matedGame id id (fun _ => 0) demoClock ()
    demoClock_stops rfl⟩

/-- Claim C7: after any number of completed cycles, every node's `visits` is
bounded by its parent's `visits`, and the root's `visits` equals the number
of completed cycles. -/
theorem claim_C7_visits_invariant {S : Type} (gs : GameSpec S) (sq lg : ℚ → ℚ)
    (random : Nat → ℚ) (s : S) (n : Nat) :
    VisitsMono (searchTree gs sq lg random s n).tree ∧
    (searchTree gs sq lg random s n).tree.visits = n :=
  ⟨searchTree_visitsMono gs sq lg random s n, searchTree_visits gs sq lg random s n⟩

/-! ### Claim C4: the time budget -/

/-- Claim C4 (amended): the loop repeats until the elapsed wall-clock time
meets or exceeds the fixed `TIME_LIMIT_MS = 1000` budget; the entry point
has no budget parameter. -/
theorem claim_C4_amended_fixed_budget {S : Type} (gs : GameSpec S) (sq lg : ℚ → ℚ)
    (random : Nat → ℚ) (clock : Nat → ℤ) (s : S) (H : ∃ i, checkFails clock i) :
    TIME_LIMIT_MS = 1000 ∧
    (∀ j, j < loopIters clock H → clock (j + 1) - clock 0 < TIME_LIMIT_MS) ∧
    TIME_LIMIT_MS ≤ clock (loopIters clock H + 1) - clock 0 ∧
    getBestMoveMCTS gs sq lg random clock s H =
      (if gs.isGameOver s then none
        else bestMoveAfter gs sq lg random s (loopIters clock H)) := by
  refine ⟨rfl, ?_, ?_, rfl⟩
  · intro j hj
    have := Nat.find_min H hj
    exact Int.lt_of_not_ge this
  · exact Nat.find_spec H

/-- Witness for the amended C4 at a concrete clock. -/
theorem claim_C4_amended_witness :
    TIME_LIMIT_MS = 1000 ∧
    (∀ j, j < loopIters demoClock demoClock_stops →
      demoClock (j + 1) - demoClock 0 < TIME_LIMIT_MS) ∧
    TIME_LIMIT_MS ≤ demoClock (loopIters demoClock demoClock_stops + 1) - demoClock 0 ∧
    getBestMoveMCTS demoGame id id (fun _ => 0) demoClock 0 demoClock_stops =
      (if demoGame.isGameOver 0 then none
        else bestMoveAfter demoGame id id (fun _ => 0) 0
          (loopIters demoClock demoClock_stops)) :=
  claim_C4_amended_fixed_budget demoGame id id (fun _ => 0) demoClock 0 demoClock_stops

/-- A `Date.now()` stream advancing 500 ms per reading, used to exhibit that
the code has no budget override. -/
def halfClock (j : Nat) : ℤ := 500 * j

theorem halfClock_stops : ∃ i, checkFails halfClock i := ⟨1, by decide⟩

theorem halfClock_spec_stops :
    ∃ i, (some (1 : ℤ)).getD 1000 ≤ halfClock (i + 1) - halfClock 0 := ⟨0, by decide⟩

/-- Counterexample to C4 as stated: with a 500 ms-per-reading clock, the
code's loop completes 1 cycle (it always waits for the fixed 1000 ms limit),
whereas the spec's interface with a budget override of 1 ms would complete 0
cycles; no override parameter exists in the code, whose iteration count is
always the 1000 ms one. -/
theorem claim_C4_counterexample :
    loopIters halfClock halfClock_stops = 1 ∧
    specSelectMoveIters (some 1) halfClock halfClock_spec_stops = 0 ∧
    (1 : Nat) ≠ 0 := by
  refine ⟨?_, ?_, by decide⟩
  · rw [loopIters, Nat.find_eq_iff]
    constructor
    · decide
    · intro j hj
      have hj0 : j = 0 := by omega
      subst hj0
      decide
  · rw [specSelectMoveIters, Nat.find_eq_iff]
    constructor
    · decide
    · intro j hj
      cases hj

/-! ### Claim C5: tie-breaking in `selectChild` -/

/-- Characterization of the `reduce` in `selectChild`: either the accumulator
survives (everything in the list is strictly worse), or the result is the
element of the list that beats the accumulator and everything before it
weakly and everything after it strictly — i.e. the last-encountered maximum. -/
theorem reduceBest_spec (sq lg : ℚ → ℚ) (pv : Nat) :
    ∀ (l : List MCTSNode) (j : Nat) (acc : Nat × MCTSNode),
      (reduceBest sq lg pv acc j l = acc ∧
        ∀ x ∈ l, uctValue sq lg pv x < uctValue sq lg pv acc.2) ∨
      (∃ l1 x l2, l = l1 ++ x :: l2 ∧
        reduceBest sq lg pv acc j l = (j + l1.length, x) ∧
        (∀ y ∈ l2, uctValue sq lg pv y < uctValue sq lg pv x) ∧
        uctValue sq lg pv acc.2 ≤ uctValue sq lg pv x ∧
        (∀ y ∈ l1, uctValue sq lg pv y ≤ uctValue sq lg pv x)) := by
  intro l
  induction l with
  | nil => intro j acc; left; exact ⟨rfl, by simp⟩
  | cons x xs ih =>
    intro j acc
    by_cases hgt : uctValue sq lg pv acc.2 > uctValue sq lg pv x
    · have hred : reduceBest sq lg pv acc j (x :: xs) = reduceBest sq lg pv acc (j + 1) xs := by
        simp only [reduceBest, if_pos hgt]
      rcases ih (j + 1) acc with ⟨he, hall⟩ | ⟨l1, y, l2, hdec, heq, h2, h3, h4⟩
      · left
        refine ⟨by rw [hred, he], ?_⟩
        intro z hz
        rcases List.mem_cons.mp hz with h | h
        · subst h; exact hgt
        · exact hall z h
      · right
        refine ⟨x :: l1, y, l2, by rw [hdec]; rfl, ?_, h2, h3, ?_⟩
        · rw [hred, heq]
          congr 1
          simp [List.length_cons]
          omega
        · intro z hz
          rcases List.mem_cons.mp hz with h | h
          · subst h; exact le_of_lt (lt_of_lt_of_le hgt h3)
          · exact h4 z h
    · have hle : uctValue sq lg pv acc.2 ≤ uctValue sq lg pv x := not_lt.mp hgt
      have hred : reduceBest sq lg pv acc j (x :: xs) =
          reduceBest sq lg pv (j, x) (j + 1) xs := by
        simp only [reduceBest, if_neg hgt]
      rcases ih (j + 1) (j, x) with ⟨he, hall⟩ | ⟨l1, y, l2, hdec, heq, h2, h3, h4⟩
      · right
        refine ⟨[], x, xs, rfl, ?_, hall, hle, by simp⟩
        rw [hred, he]
        simp
      · right
        refine ⟨x :: l1, y, l2, by rw [hdec]; rfl, ?_, h2, le_trans hle h3, ?_⟩
        · rw [hred, heq]
          congr 1
          simp [List.length_cons]
          omega
        · intro z hz
          rcases List.mem_cons.mp hz with h | h
          · subst h; exact h3
          · exact h4 z h

/-- `selectChild` returns a child of maximal UCT priority at a valid index,
and every child strictly after the returned index has strictly smaller
priority (last-encountered maximum). -/
theorem selectChild_spec (sq lg : ℚ → ℚ) (pv : Nat)
    (cs : List MCTSNode) (h : cs ≠ []) :
    ∃ i c, selectChild sq lg pv cs = some (i, c) ∧ cs.get? i = some c ∧
      (∀ d ∈ cs, uctValue sq lg pv d ≤ uctValue sq lg pv c) ∧
      (∀ j d, cs.get? j = some d → i < j →
        uctValue sq lg pv d < uctValue sq lg pv c) := by
  cases cs with
  | nil => exact absurd rfl h
  | cons c0 rest =>
    rcases reduceBest_spec sq lg pv rest 1 (0, c0) with
      ⟨he, hall⟩ | ⟨l1, x, l2, hdec, heq, h2, h3, h4⟩
    · refine ⟨0, c0, ?_, rfl, ?_, ?_⟩
      · simp only [selectChild, he]
      · intro d hd
        rcases List.mem_cons.mp hd with h | h
        · subst h; exact le_refl _
        · exact le_of_lt (hall d h)
      · intro j d hget hj
        cases j with
        | zero => cases hj
        | succ j' =>
          rw [List.get?_cons_succ] at hget
          exact hall d (List.get?_mem hget)
    · refine ⟨1 + l1.length, x, ?_, ?_, ?_, ?_⟩
      · simp only [selectChild, heq]
      · have h1l : 1 + l1.length = l1.length + 1 := Nat.add_comm 1 _
        rw [h1l, List.get?_cons_succ, hdec,
          List.get?_append_right (le_refl l1.length)]
        simp
      · intro d hd
        rcases List.mem_cons.mp hd with h | h
        · subst h; exact h3
        · rw [hdec] at h
          rcases List.mem_append.mp h with h | h
          · exact h4 d h
          · rcases List.mem_cons.mp h with h | h
            · subst h; exact le_refl _
            · exact le_of_lt (h2 d h)
      · intro j d hget hj
        cases j with
        | zero => cases hj
        | succ j' =>
          rw [List.get?_cons_succ, hdec] at hget
          have hj' : l1.length ≤ j' := by omega
          rw [List.get?_append_right hj'] at hget
          have hpos : 0 < j' - l1.length := by omega
          obtain ⟨m, hm⟩ := Nat.exists_eq_succ_of_ne_zero (Nat.pos_iff_ne_zero.mp hpos)
          rw [hm, List.get?_cons_succ] at hget
          exact h2 d (List.get?_mem hget)

/-- Claim C5 (amended): `selectChild` always returns a child of maximal UCT
priority, and when several children tie for the maximum it returns the
last-encountered (rightmost) one: every child strictly after the returned
index has strictly smaller priority. -/
theorem claim_C5_amended_last_encountered_max (sq lg : ℚ → ℚ) (pv : Nat)
    (cs : List MCTSNode) (h : cs ≠ []) :
    ∃ i c, selectChild sq lg pv cs = some (i, c) ∧ cs.get? i = some c ∧
      (∀ d ∈ cs, uctValue sq lg pv d ≤ uctValue sq lg pv c) ∧
      (∀ j d, cs.get? j = some d → i < j →
        uctValue sq lg pv d < uctValue sq lg pv c) :=
  selectChild_spec sq lg pv cs h

/-- Witness for the amended C5. -/
theorem claim_C5_amended_witness :
    ([MCTSNode.mk (some "a") [] Color.w 1 (1 / 2) [],
      MCTSNode.mk (some "b") [] Color.w 1 (1 / 2) []] ≠ ([] : List MCTSNode)) ∧
    ∃ i c, selectChild id id 2
        [MCTSNode.mk (some "a") [] Color.w 1 (1 / 2) [],
          MCTSNode.mk (some "b") [] Color.w 1 (1 / 2) []] = some (i, c) ∧
      ([MCTSNode.mk (some "a") [] Color.w 1 (1 / 2) [],
        MCTSNode.mk (some "b") [] Color.w 1 (1 / 2) []].get? i = some c) ∧
      (∀ d ∈ [MCTSNode.mk (some "a") [] Color.w 1 (1 / 2) [],
          MCTSNode.mk (some "b") [] Color.w 1 (1 / 2) []],
        uctValue id id 2 d ≤ uctValue id id 2 c) ∧
      (∀ j d, [MCTSNode.mk (some "a") [] Color.w 1 (1 / 2) [],
          MCTSNode.mk (some "b") [] Color.w 1 (1 / 2) []].get? j = some d → i < j →
        uctValue id id 2 d < uctValue id id 2 c) :=
  ⟨by simp, claim_C5_amended_last_encountered_max id id 2 _ (by simp)⟩

/-- Counterexample to C5 as stated: two children with identical statistics
(equal UCT priority); `selectChild` returns the second (index 1), not the
first-encountered maximum. -/
theorem claim_C5_counterexample :
    uctValue id id 2 (MCTSNode.mk (some "a") [] Color.w 1 (1 / 2) []) =
      uctValue id id 2 (MCTSNode.mk (some "b") [] Color.w 1 (1 / 2) []) ∧
    selectChild id id 2
      [MCTSNode.mk (some "a") [] Color.w 1 (1 / 2) [],
        MCTSNode.mk (some "b") [] Color.w 1 (1 / 2) []] =
      some (1, MCTSNode.mk (some "b") [] Color.w 1 (1 / 2) []) ∧
    MCTSNode.mk (some "a") [] Color.w 1 (1 / 2) [] ≠
      MCTSNode.mk (some "b") [] Color.w 1 (1 / 2) [] := by
  refine ⟨rfl, ?_, by simp⟩
  have hne : ¬(uctValue id id 2 (MCTSNode.mk (some "a") [] Color.w 1 (1 / 2) []) >
      uctValue id id 2 (MCTSNode.mk (some "b") [] Color.w 1 (1 / 2) [])) := by
    have he : uctValue id id 2 (MCTSNode.mk (some "a") [] Color.w 1 (1 / 2) []) =
        uctValue id id 2 (MCTSNode.mk (some "b") [] Color.w 1 (1 / 2) []) := rfl
    rw [he]
    exact lt_irrefl _
  simp only [selectChild, reduceBest, if_neg hne]

/-! ### Claim C10: a non-terminal input always yields a move -/

/-- Every child ever added to the tree is labelled with a move
(`addChild` always passes `some move`). -/
theorem cycle_children_move {S : Type} (gs : GameSpec S) (sq lg : ℚ → ℚ)
    (random : Nat → ℚ) (t : MCTSNode) (g : S) (k : Nat)
    (h : ∀ c ∈ t.children, c.move ≠ none) :
    ∀ c ∈ (cycle gs sq lg random t g k).tree.children, c.move ≠ none := by
  induction t, g, k using cycle.induct gs sq lg random with
  | case1 t g k hsel hnone =>
    obtain ⟨i, c, hc⟩ := selectChild_isSome hsel.2
    rw [hc] at hnone; cases hnone
  | case2 t g k hsel i c hc mlet ih =>
    rw [cycle_eq_select gs sq lg random t g k hsel i c hc]
    simp only
    intro c' hc'
    rw [MCTSNode.children_update] at hc'
    cases t with
    | mk m um pjm v w cs =>
      simp only [MCTSNode.withChildren_def, MCTSNode.children_mk] at hc'
      rcases List.mem_or_eq_of_mem_set hc' with hmem | heq
      · exact h c' hmem
      · subst heq
        rw [cycle_move]
        exact h c (selectChild_mem hc)
  | case3 t g k hsel hexp =>
    rw [cycle_eq_expand gs sq lg random t g k hsel hexp]
    simp only
    intro c' hc'
    rw [MCTSNode.children_update] at hc'
    cases t with
    | mk m um pjm v w cs =>
      simp only [MCTSNode.withUntried_def, MCTSNode.withChildren_def, MCTSNode.children_mk,
        List.mem_append, List.mem_singleton] at hc'
      rcases hc' with hmem | heq
      · exact h c' hmem
      · subst heq
        rw [MCTSNode.move_update]
        simp [mkNode]
  | case4 t g k hsel hexp =>
    rw [cycle_eq_skip gs sq lg random t g k hsel hexp]
    simp only
    intro c' hc'
    rw [MCTSNode.children_update] at hc'
    exact h c' hc'

theorem searchTree_children_move {S : Type} (gs : GameSpec S) (sq lg : ℚ → ℚ)
    (random : Nat → ℚ) (s : S) (n : Nat) :
    ∀ c ∈ (searchTree gs sq lg random s n).tree.children, c.move ≠ none := by
  induction n with
  | zero => intro c hc; simp [searchTree, mkNode] at hc
  | succ n ih => exact cycle_children_move gs sq lg random _ s _ ih

/-- Claim C10: for a non-terminal input position, when the first top-of-loop
check still sees elapsed time below the budget (so the loop body runs at
least once), the search completes at least one cycle and the entry point
returns a move; "no move" is reachable only for terminal inputs. -/
theorem claim_C10_nonterminal_returns_move {S : Type} (gs : GameSpec S) (sq lg : ℚ → ℚ)
    (random : Nat → ℚ) (clock : Nat → ℤ) (s : S) (H : ∃ i, checkFails clock i)
    (hck : clock 1 - clock 0 < TIME_LIMIT_MS)
    (hterm : gs.isGameOver s = false)
    (hmv : ∀ g, gs.isGameOver g = false → gs.moves g ≠ []) :
    1 ≤ loopIters clock H ∧
    ∃ m, getBestMoveMCTS gs sq lg random clock s H = some m := by
  have hpos : 1 ≤ loopIters clock H := by
    by_contra hn
    have h0 : loopIters clock H = 0 := by omega
    have := Nat.find_spec H
    rw [loopIters] at h0
    rw [h0] at this
    exact absurd this (not_le.mpr hck)
  refine ⟨hpos, ?_⟩
  have hch : (searchTree gs sq lg random s (loopIters clock H)).tree.children ≠ [] :=
    searchTree_children_ne gs sq lg random s hterm (hmv s hterm) _ hpos
  obtain ⟨l1, c, l2, hdec, ⟨rest, hsort⟩, _, _⟩ :=
    sortByVisits_head (searchTree gs sq lg random s (loopIters clock H)).tree.children hch
  have hcmem : c ∈ (searchTree gs sq lg random s (loopIters clock H)).tree.children := by
    rw [hdec]
    exact List.mem_append.mpr (Or.inr (List.mem_cons_self _ _))
  have hmove := searchTree_children_move gs sq lg random s (loopIters clock H) c hcmem
  obtain ⟨m, hm⟩ := Option.ne_none_iff_exists'.mp hmove
  refine ⟨m, ?_⟩
  simp only [getBestMoveMCTS, hterm, Bool.false_eq_true, if_false, bestMoveAfter,
    robustChildMove, hsort, hm]

/-- Witness for C10 at the concrete demo adapter and clock. -/
theorem claim_C10_witness :
    (demoClock 1 - demoClock 0 < TIME_LIMIT_MS) ∧
    demoGame.isGameOver 0 = false ∧
    1 ≤ loopIters demoClock demoClock_stops ∧
    ∃ m, getBestMoveMCTS demoGame id id (fun _ => 0) demoClock 0 demoClock_stops = some m :=
  ⟨by decide, rfl,
    claim_C10_nonterminal_returns_move demoGame id id (fun _ => 0) demoClock 0
      demoClock_stops (by decide) rfl
      (fun g _ => by by_cases hg : g = 0 <;> simp [demoGame, hg])⟩

theorem demo_loopIters : loopIters demoClock demoClock_stops = 1 := by
  rw [loopIters, Nat.find_eq_iff]
  refine ⟨by decide, ?_⟩
  intro j hj
  have hj0 : j = 0 := by omega
  subst hj0
  decide

theorem demo_children_ne :
    (searchTree demoGame id id (fun _ => 0) 0
      (loopIters demoClock demoClock_stops)).tree.children ≠ [] := by
  rw [demo_loopIters]
  exact searchTree_children_ne demoGame id id (fun _ => 0) 0 rfl (by simp [demoGame]) 1 le_rfl

/-- Witness for C2 at the concrete demo adapter and clock. -/
theorem claim_C2_witness :
    demoGame.isGameOver 0 = false ∧
    (searchTree demoGame id id (fun _ => 0) 0
      (loopIters demoClock demoClock_stops)).tree.children ≠ [] ∧
    ∃ l1 c l2,
      (searchTree demoGame id id (fun _ => 0) 0
        (loopIters demoClock demoClock_stops)).tree.children = l1 ++ c :: l2 ∧
      getBestMoveMCTS demoGame id id (fun _ => 0) demoClock 0 demoClock_stops = c.move ∧
      (∀ d ∈ l1, d.visits < c.visits) ∧
      (∀ d ∈ (searchTree demoGame id id (fun _ => 0) 0
          (loopIters demoClock demoClock_stops)).tree.children,
        d.visits ≤ c.visits) :=
  ⟨rfl, demo_children_ne,
    claim_C2_robust_child demoGame id id (fun _ => 0) demoClock 0 demoClock_stops rfl
      demo_children_ne⟩

/-! ### Claim C1: the depth-cap heuristic is computed but never backpropagated -/

theorem floorIdx_zero (len : Nat) : floorIdx 0 len = 0 := by
  simp [floorIdx]

/-- Claim C1 (code bug): at the demo adapter from state 1 with the all-zeros
draw stream, the first cycle's rollout is cut off by the depth cap at a
non-terminal state; the `result` of lines 167-187 (the clamped
material-balance heuristic relative to the expanded child's
`playerJustMoved`) is 2/5, yet backpropagation credits the flat draw value
1/2 to both the expanded child and the root, because the loop of lines
190-228 recomputes `val` from `winner` and never reads `result`. -/
theorem claim_C1_heuristic_discarded :
    demoGame.isGameOver
      (rollout demoGame (fun _ => 0) MAX_SIMULATION_DEPTH 2 1).1 = false ∧
    simulationResultValue demoGame
      (rollout demoGame (fun _ => 0) MAX_SIMULATION_DEPTH 2 1).1
      (mkNode demoGame 2 (some "a")).playerJustMoved = 2 / 5 ∧
    (cycle demoGame id id (fun _ => 0) (mkNode demoGame 1 none) 1 0).tree.children.map
      MCTSNode.wins = [1 / 2] ∧
    (cycle demoGame id id (fun _ => 0) (mkNode demoGame 1 none) 1 0).tree.wins = 1 / 2 := by
  refine ⟨rfl, ?_, ?_, ?_⟩
  · have hwb : (Color.w = Color.b) = False := by simp
    norm_num [simulationResultValue, demoGame, materialScore, pieceValue, mkNode, hwb]
  · have hsel : ¬((mkNode demoGame 1 none).untriedMoves = [] ∧
        (mkNode demoGame 1 none).children ≠ []) := by
      simp [mkNode, demoGame]
    have hexp : (mkNode demoGame 1 none).untriedMoves ≠ [] ∧
        ¬demoGame.isGameOver 1 := by
      simp [mkNode, demoGame]
    rw [cycle_eq_expand demoGame id id (fun _ => 0) _ 1 0 hsel hexp]
    simp [mkNode, demoGame, floorIdx_zero, evalWinner, backpropValue]
  · have hsel : ¬((mkNode demoGame 1 none).untriedMoves = [] ∧
        (mkNode demoGame 1 none).children ≠ []) := by
      simp [mkNode, demoGame]
    have hexp : (mkNode demoGame 1 none).untriedMoves ≠ [] ∧
        ¬demoGame.isGameOver 1 := by
      simp [mkNode, demoGame]
    rw [cycle_eq_expand demoGame id id (fun _ => 0) _ 1 0 hsel hexp]
    simp [mkNode, demoGame, floorIdx_zero, evalWinner, backpropValue]

/-! ### Claim C9: determinism relative to the `Math.random()` stream -/

theorem rollout_agree {S : Type} (gs : GameSpec S) (r1 r2 : Nat → ℚ) :
    ∀ (fuel : Nat) (g : S) (k : Nat),
      (∀ i, k ≤ i → i < k + fuel → r1 i = r2 i) →
      rollout gs r1 fuel g k = rollout gs r2 fuel g k := by
  intro fuel
  induction fuel with
  | zero => intro g k _; rfl
  | succ f ih =>
    intro g k hagree
    simp only [rollout]
    by_cases h : gs.isGameOver g
    · simp [h]
    · simp only [h, Bool.false_eq_true, if_false]
      rw [hagree k le_rfl (by omega)]
      rw [ih (gs.applyMove g ((gs.moves g).getD (floorIdx (r2 k) (gs.moves g).length) ""))
        (k + 1) (fun i h1 h2 => hagree i (by omega) (by omega))]

theorem rollout_k_le {S : Type} (gs : GameSpec S) (random : Nat → ℚ) :
    ∀ (fuel : Nat) (g : S) (k : Nat), (rollout gs random fuel g k).2.1 ≤ k + fuel := by
  intro fuel
  induction fuel with
  | zero => intro g k; simp [rollout]
  | succ f ih =>
    intro g k
    simp only [rollout]
    by_cases h : gs.isGameOver g
    · simp only [h, if_true]
      omega
    · simp only [h, Bool.false_eq_true, if_false]
      have := ih (gs.applyMove g
        ((gs.moves g).getD (floorIdx (random k) (gs.moves g).length) "")) (k + 1)
      omega

theorem cycle_k_le {S : Type} (gs : GameSpec S) (sq lg : ℚ → ℚ) (random : Nat → ℚ) :
    ∀ (t : MCTSNode) (g : S) (k : Nat),
      (cycle gs sq lg random t g k).k ≤ k + 1 + MAX_SIMULATION_DEPTH := by
  intro t g k
  induction t, g, k using cycle.induct gs sq lg random with
  | case1 t g k hsel hnone =>
    obtain ⟨i, c, hc⟩ := selectChild_isSome hsel.2
    rw [hc] at hnone; cases hnone
  | case2 t g k hsel i c hc mlet ih =>
    rw [cycle_eq_select gs sq lg random t g k hsel i c hc]
    exact ih
  | case3 t g k hsel hexp =>
    rw [cycle_eq_expand gs sq lg random t g k hsel hexp]
    simp only
    have := rollout_k_le gs random MAX_SIMULATION_DEPTH
      (gs.applyMove g
        (t.untriedMoves.getD (floorIdx (random k) t.untriedMoves.length) "")) (k + 1)
    omega
  | case4 t g k hsel hexp =>
    rw [cycle_eq_skip gs sq lg random t g k hsel hexp]
    simp only
    have := rollout_k_le gs random MAX_SIMULATION_DEPTH g k
    omega

theorem cycle_agree {S : Type} (gs : GameSpec S) (sq lg : ℚ → ℚ) (r1 r2 : Nat → ℚ) :
    ∀ (t : MCTSNode) (g : S) (k : Nat),
      (∀ i, k ≤ i → i < k + 1 + MAX_SIMULATION_DEPTH → r1 i = r2 i) →
      cycle gs sq lg r1 t g k = cycle gs sq lg r2 t g k := by
  intro t g k
  induction t, g, k using cycle.induct gs sq lg r1 with
  | case1 t g k hsel hnone =>
    obtain ⟨i, c, hc⟩ := selectChild_isSome hsel.2
    rw [hc] at hnone; cases hnone
  | case2 t g k hsel i c hc mlet ih =>
    intro hagree
    rw [cycle_eq_select gs sq lg r1 t g k hsel i c hc,
      cycle_eq_select gs sq lg r2 t g k hsel i c hc]
    simp only
    rw [ih hagree]
  | case3 t g k hsel hexp =>
    intro hagree
    rw [cycle_eq_expand gs sq lg r1 t g k hsel hexp,
      cycle_eq_expand gs sq lg r2 t g k hsel hexp]
    simp only
    rw [hagree k le_rfl (by omega)]
    rw [rollout_agree gs r1 r2 MAX_SIMULATION_DEPTH
      (gs.applyMove g (t.untriedMoves.getD (floorIdx (r2 k) t.untriedMoves.length) ""))
      (k + 1) (fun i h1 h2 => hagree i (by omega) (by omega))]
  | case4 t g k hsel hexp =>
    intro hagree
    rw [cycle_eq_skip gs sq lg r1 t g k hsel hexp,
      cycle_eq_skip gs sq lg r2 t g k hsel hexp]
    simp only
    rw [rollout_agree gs r1 r2 MAX_SIMULATION_DEPTH g k
      (fun i h1 h2 => hagree i (by omega) (by omega))]

theorem searchTree_k_le {S : Type} (gs : GameSpec S) (sq lg : ℚ → ℚ) (random : Nat → ℚ)
    (s : S) : ∀ n, (searchTree gs sq lg random s n).k ≤ (1 + MAX_SIMULATION_DEPTH) * n := by
  intro n
  induction n with
  | zero => simp [searchTree]
  | succ n ih =>
    have hc := cycle_k_le gs sq lg random (searchTree gs sq lg random s n).tree s
      (searchTree gs sq lg random s n).k
    simp only [searchTree]
    have : (1 + MAX_SIMULATION_DEPTH) * (n + 1) =
        (1 + MAX_SIMULATION_DEPTH) * n + (1 + MAX_SIMULATION_DEPTH) := by ring
    omega

theorem searchTree_agree {S : Type} (gs : GameSpec S) (sq lg : ℚ → ℚ) (r1 r2 : Nat → ℚ)
    (s : S) : ∀ n, (∀ i, i < (1 + MAX_SIMULATION_DEPTH) * n → r1 i = r2 i) →
      searchTree gs sq lg r1 s n = searchTree gs sq lg r2 s n := by
  intro n
  induction n with
  | zero => intro _; rfl
  | succ n ih =>
    intro hagree
    have hmono : (1 + MAX_SIMULATION_DEPTH) * n ≤ (1 + MAX_SIMULATION_DEPTH) * (n + 1) :=
      Nat.mul_le_mul_left _ (Nat.le_succ n)
    have hprev := ih (fun i hi => hagree i (lt_of_lt_of_le hi hmono))
    simp only [searchTree]
    rw [← hprev]
    have hk := searchTree_k_le gs sq lg r1 s n
    rw [cycle_agree gs sq lg r1 r2 (searchTree gs sq lg r1 s n).tree s
      (searchTree gs sq lg r1 s n).k
      (fun i h1 h2 => hagree i (by
        have : (1 + MAX_SIMULATION_DEPTH) * (n + 1) =
            (1 + MAX_SIMULATION_DEPTH) * n + (1 + MAX_SIMULATION_DEPTH) := by ring
        omega))]

/-- Claim C9 (amended): the chosen move is a deterministic function of the
position, the iteration count, and the `Math.random()` draws actually
consumed: two draw streams agreeing on the first `51 * n` values yield the
same move after `n` cycles.  (The source has no seed parameter: the stream is
the ambient global `Math.random()`.) -/
theorem claim_C9_amended_deterministic_in_stream {S : Type} (gs : GameSpec S)
    (sq lg : ℚ → ℚ) (r1 r2 : Nat → ℚ) (s : S) (n : Nat)
    (hagree : ∀ i, i < (1 + MAX_SIMULATION_DEPTH) * n → r1 i = r2 i) :
    bestMoveAfter gs sq lg r1 s n = bestMoveAfter gs sq lg r2 s n := by
  rw [bestMoveAfter, bestMoveAfter, searchTree_agree gs sq lg r1 r2 s n hagree]

/-- Witness for the amended C9. -/
theorem claim_C9_amended_witness :
    (∀ i, i < (1 + MAX_SIMULATION_DEPTH) * 1 → (fun _ => (0 : ℚ)) i = (fun _ => (0 : ℚ)) i) ∧
    bestMoveAfter demoGame id id (fun _ => 0) 0 1 =
      bestMoveAfter demoGame id id (fun _ => 0) 0 1 :=
  ⟨fun _ _ => rfl,
    claim_C9_amended_deterministic_in_stream demoGame id id (fun _ => 0) (fun _ => 0) 0 1
      (fun _ _ => rfl)⟩

theorem floorIdx_half_two : floorIdx ((2 : ℚ)⁻¹) 2 = 1 := by
  have h : ((2 : ℚ)⁻¹) * ((2 : Nat) : ℚ) = 1 := by norm_num
  rw [floorIdx, h, Int.floor_one]
  rfl

/-- Counterexample to C9 as stated: the same position and iteration count
with two different ambient `Math.random()` streams (all-zeros versus
all-one-halves) yields two different moves; since the source draws from the
global `Math.random()` and exposes no seed, nothing in the interface pins
the stream down, so two invocations need not agree. -/
theorem claim_C9_counterexample :
    bestMoveAfter demoGame id id (fun _ => 0) 0 1 = some "a" ∧
    bestMoveAfter demoGame id id (fun _ => (1 : ℚ) / 2) 0 1 = some "b" ∧
    (some "a" : Option Move) ≠ some "b" := by
  have hsel : ¬((mkNode demoGame 0 none).untriedMoves = [] ∧
      (mkNode demoGame 0 none).children ≠ []) := by
    simp [mkNode, demoGame]
  have hexp : (mkNode demoGame 0 none).untriedMoves ≠ [] ∧
      ¬demoGame.isGameOver 0 := by
    simp [mkNode, demoGame]
  refine ⟨?_, ?_, by simp⟩
  · simp only [bestMoveAfter, searchTree]
    rw [cycle_eq_expand demoGame id id (fun _ => 0) _ 0 0 hsel hexp]
    simp [mkNode, demoGame, floorIdx_zero, robustChildMove, sortByVisits, insertByVisits,
      evalWinner, backpropValue]
  · simp only [bestMoveAfter, searchTree]
    rw [cycle_eq_expand demoGame id id (fun _ => (1 : ℚ) / 2) _ 0 0 hsel hexp]
    simp [mkNode, demoGame, floorIdx_half_two, robustChildMove, sortByVisits, insertByVisits,
      evalWinner, backpropValue]

/-! ### Claim C6: untried moves plus children moves = legal-move set -/

theorem getD_mem_of_lt {α : Type _} :
    ∀ (l : List α) (i : Nat) (d : α), i < l.length → l.getD i d ∈ l := by
  intro l
  induction l with
  | nil => intro i d h; cases h
  | cons a as ih =>
    intro i d h
    cases i with
    | zero => exact List.mem_cons_self _ _
    | succ i' =>
      simp only [List.getD_cons_succ]
      exact List.mem_cons_of_mem _ (ih i' d (by simpa using h))

theorem floorIdx_lt {r : ℚ} (h0 : 0 ≤ r) (h1 : r < 1) {len : Nat} (hl : 0 < len) :
    floorIdx r len < len := by
  rw [floorIdx]
  have hlen : (0 : ℚ) < (len : ℚ) := by exact_mod_cast hl
  have hmul : r * (len : ℚ) < (len : ℚ) := by
    calc r * (len : ℚ) < 1 * (len : ℚ) := mul_lt_mul_of_pos_right h1 hlen
      _ = (len : ℚ) := one_mul _
  have hfl : ⌊r * (len : ℚ)⌋ < (len : ℤ) := by
    apply Int.floor_lt.mpr
    push_cast
    exact hmul
  omega

theorem selectChild_get {sq lg : ℚ → ℚ} {pv : Nat} {cs : List MCTSNode}
    {i : Nat} {c : MCTSNode} (hne : cs ≠ [])
    (hc : selectChild sq lg pv cs = some (i, c)) : cs.get? i = some c := by
  obtain ⟨i', c', hsel', hget', _, _⟩ := selectChild_spec sq lg pv cs hne
  rw [hc] at hsel'
  injection hsel' with h
  injection h with h1 h2
  rw [← h1, ← h2] at hget'
  exact hget'

theorem filterMap_set_congr {α β : Type _} (f : α → Option β) :
    ∀ (l : List α) (i : Nat) (a b : α), l.get? i = some a → f b = f a →
      (l.set i b).filterMap f = l.filterMap f := by
  intro l
  induction l with
  | nil => intro i a b h _; cases h
  | cons x xs ih =>
    intro i a b hget hf
    cases i with
    | zero =>
      injection hget with hx
      subst hx
      simp only [List.set_cons_zero, List.filterMap_cons, hf]
    | succ i' =>
      rw [List.get?_cons_succ] at hget
      simp only [List.set_cons_succ, List.filterMap_cons, ih i' a b hget hf]

theorem filter_ne_eq_erase {l : List Move} (hnd : l.Nodup) (m : Move) :
    l.filter (· ≠ m) = l.erase m := by
  rw [hnd.erase_eq_filter]
  congr 1
  funext x
  by_cases h : x = m <;> simp [h]

/-- The per-node legal-move bookkeeping invariant: `untriedMoves` together
with the moves labelling the children is (as a multiset) exactly the
legal-move set computed by `game.moves()` at the node's creation state, every
child is labelled, and the same holds recursively for each child at its own
state. -/
inductive MovesInv {S : Type} (gs : GameSpec S) : S → MCTSNode → Prop where
  | mk (g : S) (t : MCTSNode) :
      ((t.untriedMoves : Multiset Move) +
        (t.children.filterMap MCTSNode.move : Multiset Move) =
        (gs.moves g : Multiset Move)) →
      (∀ c ∈ t.children, c.move ≠ none) →
      (∀ c ∈ t.children, MovesInv gs (gs.applyMove g (c.move.getD "")) c) →
      MovesInv gs g t

theorem MovesInv.eq_moves {S : Type} {gs : GameSpec S} {g : S} {t : MCTSNode}
    (h : MovesInv gs g t) :
    (t.untriedMoves : Multiset Move) +
      (t.children.filterMap MCTSNode.move : Multiset Move) =
      (gs.moves g : Multiset Move) := by
  cases h with
  | mk g t meq hne hrec => exact meq

theorem MovesInv.move_ne {S : Type} {gs : GameSpec S} {g : S} {t : MCTSNode}
    (h : MovesInv gs g t) : ∀ c ∈ t.children, c.move ≠ none := by
  cases h with
  | mk g t meq hne hrec => exact hne

theorem MovesInv.child {S : Type} {gs : GameSpec S} {g : S} {t : MCTSNode}
    (h : MovesInv gs g t) :
    ∀ c ∈ t.children, MovesInv gs (gs.applyMove g (c.move.getD "")) c := by
  cases h with
  | mk g t meq hne hrec => exact hrec

theorem movesInv_update {S : Type} {gs : GameSpec S} {g : S} {t : MCTSNode}
    (h : MovesInv gs g t) (v : ℚ) : MovesInv gs g (t.update v) := by
  cases t with
  | mk m um pjm vv w cs =>
    cases h with
    | mk g t meq hne hrec =>
      exact MovesInv.mk g _ (by simpa using meq) (by simpa using hne) (by simpa using hrec)

/-- One cycle preserves the legal-move bookkeeping invariant, provided the
adapter returns duplicate-free move lists and the draws lie in `[0, 1)`. -/
theorem cycle_movesInv {S : Type} (gs : GameSpec S) (sq lg : ℚ → ℚ) (random : Nat → ℚ)
    (hm : ∀ g, (gs.moves g).Nodup) (hr : ∀ i, 0 ≤ random i ∧ random i < 1) :
    ∀ (t : MCTSNode) (g : S) (k : Nat), MovesInv gs g t →
      MovesInv gs g (cycle gs sq lg random t g k).tree := by
  intro t g k
  induction t, g, k using cycle.induct gs sq lg random with
  | case1 t g k hsel hnone =>
    obtain ⟨i, c, hc⟩ := selectChild_isSome hsel.2
    rw [hc] at hnone; cases hnone
  | case2 t g k hsel i c hc mlet ih =>
    intro hinv
    rw [cycle_eq_select gs sq lg random t g k hsel i c hc]
    simp only
    apply movesInv_update
    have hget : t.children.get? i = some c := selectChild_get hsel.2 hc
    have hmv : (cycle gs sq lg random c (gs.applyMove g (c.move.getD "")) k).tree.move =
        c.move := cycle_move _ _ _ _ _ _ _
    cases t with
    | mk m um pjm v w cs =>
      simp only [MCTSNode.withChildren_def]
      refine MovesInv.mk g _ ?_ ?_ ?_
      · simp only [MCTSNode.untriedMoves_mk, MCTSNode.children_mk]
        rw [filterMap_set_congr MCTSNode.move cs i c _ hget hmv]
        exact hinv.eq_moves
      · simp only [MCTSNode.children_mk]
        intro c' hc'
        rcases List.mem_or_eq_of_mem_set hc' with hmem | heq
        · exact hinv.move_ne c' hmem
        · subst heq
          rw [hmv]
          exact hinv.move_ne c (selectChild_mem hc)
      · simp only [MCTSNode.children_mk]
        intro c' hc'
        rcases List.mem_or_eq_of_mem_set hc' with hmem | heq
        · exact hinv.child c' hmem
        · subst heq
          rw [hmv]
          exact ih (hinv.child c (selectChild_mem hc))
  | case3 t g k hsel hexp =>
    intro hinv
    rw [cycle_eq_expand gs sq lg random t g k hsel hexp]
    simp only
    apply movesInv_update
    have hum : t.untriedMoves ≠ [] := hexp.1
    have hlen : 0 < t.untriedMoves.length := List.length_pos.mpr hum
    have hidx : floorIdx (random k) t.untriedMoves.length < t.untriedMoves.length :=
      floorIdx_lt (hr k).1 (hr k).2 hlen
    have hmem : t.untriedMoves.getD (floorIdx (random k) t.untriedMoves.length) "" ∈
        t.untriedMoves := getD_mem_of_lt _ _ _ hidx
    have hndum : t.untriedMoves.Nodup := by
      have hle : (t.untriedMoves : Multiset Move) ≤ (gs.moves g : Multiset Move) := by
        rw [← hinv.eq_moves]
        exact Multiset.le_add_right _ _
      have := Multiset.nodup_of_le hle (by simpa using hm g)
      simpa using this
    cases t with
    | mk m um pjm v w cs =>
      simp only [MCTSNode.untriedMoves_mk, MCTSNode.children_mk] at *
      set m0 : Move := um.getD (floorIdx (random k) um.length) "" with hm0
      simp only [MCTSNode.withUntried_def, MCTSNode.withChildren_def]
      refine MovesInv.mk g _ ?_ ?_ ?_
      · simp only [MCTSNode.untriedMoves_mk, MCTSNode.children_mk]
        rw [List.filterMap_append]
        have hchildmv : ((mkNode gs (gs.applyMove g m0) (some m0)).update
            (backpropValue (evalWinner gs
              (rollout gs random MAX_SIMULATION_DEPTH (gs.applyMove g m0) (k + 1)).1)
              (mkNode gs (gs.applyMove g m0) (some m0)).playerJustMoved)).move =
            some m0 := by
          rw [MCTSNode.move_update]
          simp [mkNode]
        rw [filter_ne_eq_erase hndum m0]
        have hsingle : List.filterMap MCTSNode.move
            [(mkNode gs (gs.applyMove g m0) (some m0)).update
              (backpropValue (evalWinner gs
                (rollout gs random MAX_SIMULATION_DEPTH (gs.applyMove g m0) (k + 1)).1)
                (mkNode gs (gs.applyMove g m0) (some m0)).playerJustMoved)] = [m0] := by
          simp [List.filterMap_cons, hchildmv]
        rw [hsingle]
        have hperm : (um.erase m0 ++ (cs.filterMap MCTSNode.move ++ [m0])).Perm
            (um ++ cs.filterMap MCTSNode.move) := by
          have h1 : (um.erase m0 ++ (cs.filterMap MCTSNode.move ++ [m0])).Perm
              (um.erase m0 ++ ([m0] ++ cs.filterMap MCTSNode.move)) :=
            List.Perm.append_left _ List.perm_append_comm
          have h2 : um.erase m0 ++ ([m0] ++ cs.filterMap MCTSNode.move) =
              (um.erase m0 ++ [m0]) ++ cs.filterMap MCTSNode.move :=
            (List.append_assoc _ _ _).symm
          have h3 : ((um.erase m0 ++ [m0]) ++ cs.filterMap MCTSNode.move).Perm
              ((m0 :: um.erase m0) ++ cs.filterMap MCTSNode.move) :=
            List.Perm.append_right _ (List.perm_append_singleton _ _)
          have h4 : ((m0 :: um.erase m0) ++ cs.filterMap MCTSNode.move).Perm
              (um ++ cs.filterMap MCTSNode.move) :=
            List.Perm.append_right _ (List.perm_cons_erase hmem).symm
          refine h1.trans ?_
          rw [h2]
          exact h3.trans h4
        calc ((um.erase m0 : List Move) : Multiset Move) +
              ((cs.filterMap MCTSNode.move ++ [m0] : List Move) : Multiset Move)
            = ((um.erase m0 ++ (cs.filterMap MCTSNode.move ++ [m0]) : List Move) :
                Multiset Move) := (Multiset.coe_add _ _).symm
          _ = ((um ++ cs.filterMap MCTSNode.move : List Move) : Multiset Move) :=
                Multiset.coe_eq_coe.mpr hperm
          _ = (um : Multiset Move) +
                ((cs.filterMap MCTSNode.move : List Move) : Multiset Move) :=
                Multiset.coe_add _ _
          _ = (gs.moves g : Multiset Move) := hinv.eq_moves
      · simp only [MCTSNode.children_mk]
        intro c' hc'
        rcases List.mem_append.mp hc' with hmem' | hnew
        · exact hinv.move_ne c' hmem'
        · rw [List.mem_singleton] at hnew
          subst hnew
          rw [MCTSNode.move_update]
          simp [mkNode]
      · simp only [MCTSNode.children_mk]
        intro c' hc'
        rcases List.mem_append.mp hc' with hmem' | hnew
        · exact hinv.child c' hmem'
        · rw [List.mem_singleton] at hnew
          subst hnew
          rw [MCTSNode.move_update]
          simp only [mkNode, MCTSNode.move_mk, Option.getD_some]
          apply movesInv_update
          exact MovesInv.mk _ _ (by simp [mkNode]) (by simp [mkNode]) (by simp [mkNode])
  | case4 t g k hsel hexp =>
    intro hinv
    rw [cycle_eq_skip gs sq lg random t g k hsel hexp]
    simp only
    exact movesInv_update hinv _

theorem searchTree_movesInv {S : Type} (gs : GameSpec S) (sq lg : ℚ → ℚ)
    (random : Nat → ℚ) (s : S) (hm : ∀ g, (gs.moves g).Nodup)
    (hr : ∀ i, 0 ≤ random i ∧ random i < 1) :
    ∀ n, MovesInv gs s (searchTree gs sq lg random s n).tree := by
  intro n
  induction n with
  | zero =>
    exact MovesInv.mk _ _ (by simp [searchTree, mkNode]) (by simp [searchTree, mkNode])
      (by simp [searchTree, mkNode])
  | succ n ih =>
    exact cycle_movesInv gs sq lg random hm hr _ s _ ih

/-- Claim C6: for every node at every point during a search, `untriedMoves`
together with the moves labelling the existing children is exactly the
legal-move set computed once at that node's creation — no duplicates, no
omissions (stated via the recursive invariant `MovesInv`, plus its root-level
reading as a permutation of `gs.moves s` and duplicate-freedom). -/
theorem claim_C6_move_partition {S : Type} (gs : GameSpec S) (sq lg : ℚ → ℚ)
    (random : Nat → ℚ) (s : S) (hm : ∀ g, (gs.moves g).Nodup)
    (hr : ∀ i, 0 ≤ random i ∧ random i < 1) (n : Nat) :
    MovesInv gs s (searchTree gs sq lg random s n).tree ∧
    ((searchTree gs sq lg random s n).tree.untriedMoves ++
      (searchTree gs sq lg random s n).tree.children.filterMap MCTSNode.move).Perm
      (gs.moves s) ∧
    ((searchTree gs sq lg random s n).tree.untriedMoves ++
      (searchTree gs sq lg random s n).tree.children.filterMap MCTSNode.move).Nodup := by
  have hinv := searchTree_movesInv gs sq lg random s hm hr n
  have hperm : ((searchTree gs sq lg random s n).tree.untriedMoves ++
      (searchTree gs sq lg random s n).tree.children.filterMap MCTSNode.move).Perm
      (gs.moves s) := by
    apply Multiset.coe_eq_coe.mp
    rw [← Multiset.coe_add]
    exact hinv.eq_moves
  exact ⟨hinv, hperm, (hperm.nodup_iff).mpr (hm s)⟩

/-- Witness for C6 at the concrete demo adapter. -/
theorem claim_C6_witness :
    (∀ g, (demoGame.moves g).Nodup) ∧
    (∀ i : Nat, 0 ≤ (fun _ : Nat => (0 : ℚ)) i ∧ (fun _ : Nat => (0 : ℚ)) i < 1) ∧
    (MovesInv demoGame 0 (searchTree demoGame id id (fun _ => 0) 0 1).tree ∧
      ((searchTree demoGame id id (fun _ => 0) 0 1).tree.untriedMoves ++
        (searchTree demoGame id id (fun _ => 0) 0 1).tree.children.filterMap
          MCTSNode.move).Perm (demoGame.moves 0) ∧
      ((searchTree demoGame id id (fun _ => 0) 0 1).tree.untriedMoves ++
        (searchTree demoGame id id (fun _ => 0) 0 1).tree.children.filterMap
          MCTSNode.move).Nodup) :=
  ⟨fun g => by by_cases hg : g = 0 <;> simp [demoGame, hg],
    fun _ => ⟨le_refl 0, by norm_num⟩,
    claim_C6_move_partition demoGame id id (fun _ => 0) 0
      (fun g => by by_cases hg : g = 0 <;> simp [demoGame, hg])
      (fun _ => ⟨le_refl 0, by norm_num⟩) 1⟩

/-! ### Claim C8: every applied move came from `moves()` of the state it is
applied to -/

theorem rollout_trace_legal {S : Type} (gs : GameSpec S) (random : Nat → ℚ)
    (hr : ∀ i, 0 ≤ random i ∧ random i < 1)
    (hmv : ∀ g, gs.isGameOver g = false → gs.moves g ≠ []) :
    ∀ (fuel : Nat) (g : S) (k : Nat),
      ∀ p ∈ (rollout gs random fuel g k).2.2, p.2 ∈ gs.moves p.1 := by
  intro fuel
  induction fuel with
  | zero => intro g k p hp; simp [rollout] at hp
  | succ f ih =>
    intro g k p hp
    simp only [rollout] at hp
    by_cases h : gs.isGameOver g
    · simp [h] at hp
    · simp only [h, Bool.false_eq_true, if_false] at hp
      rcases List.mem_cons.mp hp with heq | hmem
      · subst heq
        have hne : gs.moves g ≠ [] := hmv g (by simpa using h)
        have hlen : 0 < (gs.moves g).length := List.length_pos.mpr hne
        exact getD_mem_of_lt _ _ _ (floorIdx_lt (hr k).1 (hr k).2 hlen)
      · exact ih _ _ p hmem

theorem cycle_trace_legal {S : Type} (gs : GameSpec S) (sq lg : ℚ → ℚ)
    (random : Nat → ℚ) (hr : ∀ i, 0 ≤ random i ∧ random i < 1)
    (hmv : ∀ g, gs.isGameOver g = false → gs.moves g ≠ []) :
    ∀ (t : MCTSNode) (g : S) (k : Nat), MovesInv gs g t →
      ∀ p ∈ (cycle gs sq lg random t g k).trace, p.2 ∈ gs.moves p.1 := by
  intro t g k
  induction t, g, k using cycle.induct gs sq lg random with
  | case1 t g k hsel hnone =>
    obtain ⟨i, c, hc⟩ := selectChild_isSome hsel.2
    rw [hc] at hnone; cases hnone
  | case2 t g k hsel i c hc mlet ih =>
    intro hinv p hp
    rw [cycle_eq_select gs sq lg random t g k hsel i c hc] at hp
    simp only at hp
    rcases List.mem_cons.mp hp with heq | hmem
    · subst heq
      have hcmem := selectChild_mem hc
      obtain ⟨m', hm'⟩ := Option.ne_none_iff_exists'.mp (hinv.move_ne c hcmem)
      have hmfm : m' ∈ t.children.filterMap MCTSNode.move :=
        List.mem_filterMap.mpr ⟨c, hcmem, hm'⟩
      have : m' ∈ gs.moves g := by
        have hmem2 : m' ∈ (t.untriedMoves : Multiset Move) +
            (t.children.filterMap MCTSNode.move : Multiset Move) :=
          Multiset.mem_add.mpr (Or.inr (by exact_mod_cast hmfm))
        rw [hinv.eq_moves] at hmem2
        exact_mod_cast hmem2
      simpa [hm'] using this
    · exact ih (hinv.child c (selectChild_mem hc)) p hmem
  | case3 t g k hsel hexp =>
    intro hinv p hp
    rw [cycle_eq_expand gs sq lg random t g k hsel hexp] at hp
    simp only at hp
    rcases List.mem_cons.mp hp with heq | hmem
    · subst heq
      have hlen : 0 < t.untriedMoves.length := List.length_pos.mpr hexp.1
      have hmm : t.untriedMoves.getD (floorIdx (random k) t.untriedMoves.length) "" ∈
          t.untriedMoves := getD_mem_of_lt _ _ _ (floorIdx_lt (hr k).1 (hr k).2 hlen)
      have hmem2 : t.untriedMoves.getD (floorIdx (random k) t.untriedMoves.length) "" ∈
          (t.untriedMoves : Multiset Move) +
            (t.children.filterMap MCTSNode.move : Multiset Move) :=
        Multiset.mem_add.mpr (Or.inl (by exact_mod_cast hmm))
      rw [hinv.eq_moves] at hmem2
      exact_mod_cast hmem2
    · exact rollout_trace_legal gs random hr hmv MAX_SIMULATION_DEPTH _ (k + 1) p hmem
  | case4 t g k hsel hexp =>
    intro hinv p hp
    rw [cycle_eq_skip gs sq lg random t g k hsel hexp] at hp
    simp only at hp
    exact rollout_trace_legal gs random hr hmv MAX_SIMULATION_DEPTH g k p hp

/-- Claim C8: every move the engine applies — during selection descent,
expansion (both the `addChild` replay and the `gameClone` step), and rollout
— is a member of the adapter's `moves()` list for exactly the state it is
applied to. -/
theorem claim_C8_applied_moves_legal {S : Type} (gs : GameSpec S) (sq lg : ℚ → ℚ)
    (random : Nat → ℚ) (s : S) (hm : ∀ g, (gs.moves g).Nodup)
    (hr : ∀ i, 0 ≤ random i ∧ random i < 1)
    (hmv : ∀ g, gs.isGameOver g = false → gs.moves g ≠ []) (n : Nat) :
    ∀ p ∈ (searchTree gs sq lg random s n).trace, p.2 ∈ gs.moves p.1 := by
  induction n with
  | zero => intro p hp; simp [searchTree] at hp
  | succ n ih =>
    intro p hp
    simp only [searchTree] at hp
    rcases List.mem_append.mp hp with hmem | hmem
    · exact ih p hmem
    · exact cycle_trace_legal gs sq lg random hr hmv _ s _
        (searchTree_movesInv gs sq lg random s hm hr n) p hmem

/-- Witness for C8 at the concrete demo adapter. -/
theorem claim_C8_witness :
    (∀ g, (demoGame.moves g).Nodup) ∧
    (∀ g, demoGame.isGameOver g = false → demoGame.moves g ≠ []) ∧
    ∀ p ∈ (searchTree demoGame id id (fun _ => 0) 0 1).trace,
      p.2 ∈ demoGame.moves p.1 :=
  ⟨fun g => by by_cases hg : g = 0 <;> simp [demoGame, hg],
    fun g _ => by by_cases hg : g = 0 <;> simp [demoGame, hg],
    claim_C8_applied_moves_legal demoGame id id (fun _ => 0) 0
      (fun g => by by_cases hg : g = 0 <;> simp [demoGame, hg])
      (fun _ => ⟨le_refl 0, by norm_num⟩)
      (fun g _ => by by_cases hg : g = 0 <;> simp [demoGame, hg]) 1⟩

end MCTS